import Mathlib

/-!
# Verification of the tlspuffin core (snapshot)

Shallow embedding of the in-memory channel / stream layer (`src/io.rs`),
the typed term algebra and its mutation operators, the knowledge store of
the trace executor, and the dynamic-function table, together with theorems
settling the specification claims about them.

Bytes are modelled as `Nat` with an explicit `% 256` wherever the source
truncates to a machine byte, and record lengths with `% 65536` where the
source casts to `u16`.
-/

namespace Tlspuffin

/-! ## Channels and `MemoryStream` (src/io.rs)

A `Channel` is `io::Cursor<Vec<u8>>`: a byte vector plus a read/write
cursor position. -/

structure Channel where
  data : List Nat
  pos : Nat
deriving DecidableEq, Repr

/-- A `MemoryStream` has an inbound and an outbound `Channel`
(`src/io.rs`, `struct MemoryStream`). -/
structure MemoryStream where
  inbound : Channel
  outbound : Channel
deriving DecidableEq, Repr

/-- `MemoryStream::new` (src/io.rs line 165). -/
def MemoryStream.new : MemoryStream :=
  { inbound := ⟨[], 0⟩, outbound := ⟨[], 0⟩ }

/-- The only `io::ErrorKind` produced by `MemoryStream::read`. -/
inductive IOErrorKind where
  | wouldBlock
deriving DecidableEq, Repr

/-- `impl Read for MemoryStream` (src/io.rs lines 221-238).

`self.inbound.read(buf)` on a `Cursor` copies
`n = min (buf.len, data.len - pos)` bytes starting at the cursor and
advances the cursor by `n`.  The source then clears the channel when the
cursor reached the end, and finally returns `WouldBlock` when `n == 0`.
We return the bytes read (the source fills `buf` in place) together with
the mutated stream; the clearing happens before the `n == 0` check, so the
state update applies on the error path as well. -/
def MemoryStream.read (s : MemoryStream) (bufLen : Nat) :
    Except IOErrorKind (List Nat) × MemoryStream :=
  let len := s.inbound.data.length
  let pos := s.inbound.pos
  let n := min bufLen (len - pos)
  let bytes := (s.inbound.data.drop pos).take n
  let newPos := pos + n
  let inbound' : Channel := if newPos = len then ⟨[], 0⟩ else ⟨s.inbound.data, newPos⟩
  if n = 0 then
    (.error .wouldBlock, { s with inbound := inbound' })
  else
    (.ok bytes, { s with inbound := inbound' })

/-! ## TLS records and the deframer

`take_message_from_outbound` (src/io.rs lines 182-218) delegates the
framing to rustls' `MessageDeframer`, whose sources are outside this
snapshot.  Modelled from the spec: the opaque-message format is "the exact
TLS record layout (5-byte header + payload)" (§6), and the deframer
greedily splits the buffer into complete records, keeping any trailing
bytes that do not yet form a complete record as an (internal) leftover. -/

/-- `rustls::msgs::message::OpaqueMessage`: content type byte, two protocol
version bytes, and the raw payload. -/
structure OpaqueMessage where
  typ : Nat
  versionMajor : Nat
  versionMinor : Nat
  payload : List Nat
deriving DecidableEq, Repr

/-- `OpaqueMessage::encode`: 5-byte header (type, version, big-endian `u16`
length) followed by the payload.  Header fields are truncated to bytes and
the length to `u16` exactly where the source types are `u8`/`u16`. -/
def OpaqueMessage.encode (m : OpaqueMessage) : List Nat :=
  m.typ % 256 :: m.versionMajor % 256 :: m.versionMinor % 256 ::
    m.payload.length % 65536 / 256 :: m.payload.length % 256 ::
    m.payload.map (· % 256)

/-- A valid TLS record in the sense of the wire layout: all fields are in
byte range and the payload length fits the header's `u16` length field. -/
def ValidRecord (m : OpaqueMessage) : Prop :=
  m.typ < 256 ∧ m.versionMajor < 256 ∧ m.versionMinor < 256 ∧
    (∀ b ∈ m.payload, b < 256) ∧ m.payload.length < 65536

instance : DecidablePred ValidRecord := fun m => by
  unfold ValidRecord; infer_instance

/-- Modelled from the spec: the rustls `MessageDeframer` buffer state after
reading the whole outbound slice — the list of complete records deframed
from the front, and the leftover bytes that are too short to form a
complete record (fewer than 5 header bytes, or fewer payload bytes than
the header's length field announces). -/
def deframe : List Nat → List OpaqueMessage × List Nat
  | t :: v1 :: v2 :: l1 :: l2 :: rest =>
    let len := l1 * 256 + l2
    if len ≤ rest.length then
      let r := deframe (rest.drop len)
      (⟨t, v1, v2, rest.take len⟩ :: r.1, r.2)
    else
      ([], t :: v1 :: v2 :: l1 :: l2 :: rest)
  | b => ([], b)
termination_by b => b.length
decreasing_by
  simp only [List.length_cons, List.length_drop]
  omega

/-- The error type of `Stream` operations (`Error::Stream`). -/
inductive StreamError where
  | stream (msg : String)
deriving DecidableEq, Repr

/-- `MessageResult(Option<Message>, OpaqueMessage)` (src/io.rs line 173).
The semantic `Message` type lives in rustls; we keep it abstract as `μ`.
The second component (the raw record) is a Lean keyword in the source's
spelling, so it is named `raw` here. -/
structure MessageResult (μ : Type) where
  message : Option μ
  raw : OpaqueMessage
deriving DecidableEq, Repr

/-- `MemoryStream::take_message_from_outbound` (src/io.rs lines 182-218),
parameterised by the semantic parser `Message::try_from` (rustls, outside
the snapshot).  The source deframes the whole outbound vector, pops the
first frame, re-encodes the remaining frames into a fresh buffer (the
deframer's leftover bytes are dropped), replaces the outbound channel with
that buffer (`write_all` leaves the cursor at its end), and returns the
first frame together with its semantic parse when that parse succeeds.
The source's two error paths — `deframer.read` failing and `write_all`
failing — cannot trigger: reading from a byte slice and writing to a
`Vec` are infallible, so the model always returns `.ok`. -/
def MemoryStream.take_message_from_outbound {μ : Type}
    (parse : OpaqueMessage → Option μ) (s : MemoryStream) :
    Except StreamError (Option (MessageResult μ) × MemoryStream) :=
  let frames := (deframe s.outbound.data).1
  match frames with
  | [] => .ok (none, { s with outbound := ⟨[], 0⟩ })
  | first :: rest =>
    let restBuffer := (rest.map OpaqueMessage.encode).flatten
    .ok (some ⟨parse first, first⟩,
      { s with outbound := ⟨restBuffer, restBuffer.length⟩ })

/-- Iterate `take_message_from_outbound` `k` times, collecting the opaque
record of each returned message (`none` for a `None` result). -/
def runTakes {μ : Type} (parse : OpaqueMessage → Option μ) :
    Nat → MemoryStream → List (Option OpaqueMessage) × MemoryStream
  | 0, s => ([], s)
  | k + 1, s =>
    match s.take_message_from_outbound parse with
    | .ok (res, s') =>
      let r := runTakes parse k s'
      ((res.map (·.raw)) :: r.1, r.2)
    | .error _ => ([], s)

/-! ## Deframer lemmas -/

/-- Unfolding: the empty buffer deframes to no frames. -/
theorem deframe_nil : deframe [] = ([], []) := by
  rw [deframe] <;> simp

/-- Unfolding: a buffer shorter than a record header deframes to no frames,
leaving the buffer as leftover. -/
theorem deframe_short (b : List Nat) (hb : b.length < 5) : deframe b = ([], b) := by
  match b, hb with
  | [], _ => rw [deframe] <;> simp
  | [a], _ => rw [deframe] <;> simp
  | [a, b], _ => rw [deframe] <;> simp
  | [a, b, c], _ => rw [deframe] <;> simp
  | [a, b, c, d], _ => rw [deframe] <;> simp
  | a :: b :: c :: d :: e :: rest, hb => simp at hb; omega

/-- Unfolding: a buffer with at least a full header deframes by reading the
header's length field. -/
theorem deframe_cons5 (t v1 v2 l1 l2 : Nat) (rest : List Nat) :
    deframe (t :: v1 :: v2 :: l1 :: l2 :: rest)
      = if l1 * 256 + l2 ≤ rest.length then
          (⟨t, v1, v2, rest.take (l1 * 256 + l2)⟩ ::
              (deframe (rest.drop (l1 * 256 + l2))).1,
            (deframe (rest.drop (l1 * 256 + l2))).2)
        else ([], t :: v1 :: v2 :: l1 :: l2 :: rest) := by
  rw [deframe]

/-- A list of bytes (< 256) is unchanged by truncation to bytes. -/
theorem map_mod256_eq_self (l : List Nat) (hl : ∀ b ∈ l, b < 256) :
    l.map (· % 256) = l := by
  induction l with
  | nil => rfl
  | cons x xs ih =>
    simp only [List.map_cons, List.cons.injEq]
    exact ⟨Nat.mod_eq_of_lt (hl x (by simp)),
      ih fun b hb => hl b (List.mem_cons_of_mem _ hb)⟩

/-- The encoding of a record is the 5-byte header plus the payload. -/
theorem OpaqueMessage.encode_length (m : OpaqueMessage) :
    m.encode.length = 5 + m.payload.length := by
  simp only [OpaqueMessage.encode, List.length_cons, List.length_map]
  omega

/-- Deframing a buffer that starts with the encoding of a valid record
yields that record first and continues on the remaining bytes. -/
theorem deframe_encode_cons (m : OpaqueMessage) (hm : ValidRecord m) (b : List Nat) :
    deframe (m.encode ++ b) = (m :: (deframe b).1, (deframe b).2) := by
  obtain ⟨h1, h2, h3, h4, h5⟩ := hm
  have hlen : m.payload.length % 65536 / 256 * 256 + m.payload.length % 256
      = m.payload.length := by omega
  have hmap : m.payload.map (· % 256) = m.payload := map_mod256_eq_self _ h4
  simp only [OpaqueMessage.encode, List.cons_append, deframe_cons5, hmap, hlen]
  rw [if_pos (by simp)]
  rw [List.take_left' rfl, List.drop_left' rfl]
  simp [Nat.mod_eq_of_lt h1, Nat.mod_eq_of_lt h2, Nat.mod_eq_of_lt h3]

/-- Deframing the concatenation of the encodings of valid records recovers
exactly those records with no leftover. -/
theorem deframe_flatten_encode (rs : List OpaqueMessage)
    (h : ∀ r ∈ rs, ValidRecord r) :
    deframe ((rs.map OpaqueMessage.encode).flatten) = (rs, []) := by
  induction rs with
  | nil => simpa using deframe_nil
  | cons r rs ih =>
    have hr : ValidRecord r := h r (by simp)
    have hrs : ∀ x ∈ rs, ValidRecord x := fun x hx => h x (List.mem_cons_of_mem _ hx)
    simp only [List.map_cons, List.flatten_cons, deframe_encode_cons r hr, ih hrs]

/-- One `take_message_from_outbound` call on a buffer holding the
encodings of valid records pops the first record and leaves the
re-encoded remainder. -/
theorem take_message_framed {μ : Type} (parse : OpaqueMessage → Option μ)
    (r : OpaqueMessage) (rs : List OpaqueMessage)
    (h : ∀ x ∈ r :: rs, ValidRecord x) (inb : Channel) (p : Nat) :
    MemoryStream.take_message_from_outbound parse
        ⟨inb, ⟨((r :: rs).map OpaqueMessage.encode).flatten, p⟩⟩
      = .ok (some ⟨parse r, r⟩,
          ⟨inb, ⟨(rs.map OpaqueMessage.encode).flatten,
            ((rs.map OpaqueMessage.encode).flatten).length⟩⟩) := by
  unfold MemoryStream.take_message_from_outbound
  simp only [deframe_flatten_encode (r :: rs) h]

/-! ## Claim C1 -/

/-- C1: for every byte sequence consisting of `k` concatenated valid TLS
records placed in a `MemoryStream`'s outbound buffer (at any cursor
position, with any inbound channel and any semantic parser), `k`
successive `take_message_from_outbound` calls return `Some`, yielding
those `k` records in order, and the `(k+1)`-th call returns `None`. -/
theorem take_message_from_outbound_reframing {μ : Type}
    (parse : OpaqueMessage → Option μ) (rs : List OpaqueMessage)
    (h : ∀ r ∈ rs, ValidRecord r) (inb : Channel) (p : Nat) :
    (runTakes parse (rs.length + 1)
        ⟨inb, ⟨(rs.map OpaqueMessage.encode).flatten, p⟩⟩).1
      = rs.map some ++ [none] := by
  induction rs generalizing p with
  | nil =>
    simp only [List.map_nil, List.flatten_nil, List.length_nil, runTakes,
      MemoryStream.take_message_from_outbound, deframe_nil]
    simp
  | cons r rs ih =>
    have hrs : ∀ x ∈ rs, ValidRecord x := fun x hx => h x (List.mem_cons_of_mem _ hx)
    simp only [List.length_cons, runTakes, take_message_framed parse r rs h inb p]
    simp only [Option.map_some, List.map_cons, List.cons_append, List.cons.injEq]
    exact ⟨rfl, ih hrs _⟩

/-- Witness for C1 at two concrete records. -/
theorem take_message_from_outbound_reframing_witness :
    (runTakes (fun _ => (none : Option Unit)) 3
        ⟨⟨[], 0⟩, ⟨(([⟨22, 3, 3, [7]⟩, ⟨23, 3, 3, []⟩] :
            List OpaqueMessage).map OpaqueMessage.encode).flatten, 0⟩⟩).1
      = [some ⟨22, 3, 3, [7]⟩, some ⟨23, 3, 3, []⟩, none] :=
  take_message_from_outbound_reframing (fun _ => (none : Option Unit))
    [⟨22, 3, 3, [7]⟩, ⟨23, 3, 3, []⟩] (by decide) ⟨[], 0⟩ 0

/-! ## Claim C8 -/

/-- C8: when the outbound buffer starts with a complete, deframable record
whose semantic parse fails, `take_message_from_outbound` still returns
`Ok(Some(..))` carrying the opaque record with no parsed form, rather
than an error. -/
theorem take_message_parse_failure_returns_opaque {μ : Type}
    (parse : OpaqueMessage → Option μ) (r : OpaqueMessage) (hr : ValidRecord r)
    (rest : List Nat) (inb : Channel) (p : Nat) (hp : parse r = none) :
    ∃ s', MemoryStream.take_message_from_outbound parse
        ⟨inb, ⟨r.encode ++ rest, p⟩⟩ = .ok (some ⟨none, r⟩, s') := by
  unfold MemoryStream.take_message_from_outbound
  simp only [deframe_encode_cons r hr rest, hp]
  exact ⟨_, rfl⟩

/-- Witness for C8: a handshake record whose parser rejects it. -/
theorem take_message_parse_failure_returns_opaque_witness :
    ∃ s', MemoryStream.take_message_from_outbound (fun _ => (none : Option Unit))
        ⟨⟨[], 0⟩, ⟨(OpaqueMessage.encode ⟨22, 3, 3, [7]⟩) ++ [9], 0⟩⟩
      = .ok (some ⟨none, ⟨22, 3, 3, [7]⟩⟩, s') :=
  take_message_parse_failure_returns_opaque (fun _ => (none : Option Unit))
    ⟨22, 3, 3, [7]⟩ (by decide) [9] ⟨[], 0⟩ 0 rfl

/-! ## Claim C2 -/

/-- Inversion: when a byte buffer deframes to a first record `r`, the
buffer starts with `r.encode`, the remaining bytes deframe to the
remaining frames, and `r` is a valid record. -/
theorem deframe_cons_inv (b : List Nat) (hb : ∀ x ∈ b, x < 256)
    (r : OpaqueMessage) (rest : List OpaqueMessage) (leftover : List Nat)
    (h : deframe b = (r :: rest, leftover)) :
    ValidRecord r ∧ b = r.encode ++ b.drop r.encode.length ∧
      deframe (b.drop r.encode.length) = (rest, leftover) := by
  match b with
  | [] => rw [deframe_nil] at h; simp at h
  | [a] => rw [deframe_short _ (by simp)] at h; simp at h
  | [a, b] => rw [deframe_short _ (by simp)] at h; simp at h
  | [a, b, c] => rw [deframe_short _ (by simp)] at h; simp at h
  | [a, b, c, d] => rw [deframe_short _ (by simp)] at h; simp at h
  | t :: v1 :: v2 :: l1 :: l2 :: rest' =>
    rw [deframe_cons5] at h
    by_cases hg : l1 * 256 + l2 ≤ rest'.length
    · rw [if_pos hg] at h
      obtain ⟨hr, hframes⟩ : (⟨t, v1, v2, rest'.take (l1 * 256 + l2)⟩ : OpaqueMessage) = r
          ∧ ((deframe (rest'.drop (l1 * 256 + l2))).1 = rest
            ∧ (deframe (rest'.drop (l1 * 256 + l2))).2 = leftover) := by
        have h1 := congrArg Prod.fst h
        have h2 := congrArg Prod.snd h
        simp only [List.cons.injEq] at h1
        exact ⟨h1.1, h1.2, h2⟩
      have ht : t < 256 := hb t (by simp)
      have hv1 : v1 < 256 := hb v1 (by simp)
      have hv2 : v2 < 256 := hb v2 (by simp)
      have hl1 : l1 < 256 := hb l1 (by simp)
      have hl2 : l2 < 256 := hb l2 (by simp)
      have hplen : (rest'.take (l1 * 256 + l2)).length = l1 * 256 + l2 := by
        simp [min_eq_left hg]
      have hvalid : ValidRecord r := by
        rw [← hr]
        refine ⟨ht, hv1, hv2, fun x hx => ?_, by rw [hplen]; omega⟩
        exact hb x (by
          have := List.mem_of_mem_take hx
          simp [this])
      have henc : r.encode = t :: v1 :: v2 :: l1 :: l2 :: rest'.take (l1 * 256 + l2) := by
        rw [← hr]
        simp only [OpaqueMessage.encode, hplen]
        rw [map_mod256_eq_self _ (fun x hx => hb x (by
          have := List.mem_of_mem_take hx
          simp [this]))]
        have e1 : (l1 * 256 + l2) % 65536 = l1 * 256 + l2 := by omega
        have e2 : (l1 * 256 + l2) % 65536 / 256 = l1 := by omega
        have e3 : (l1 * 256 + l2) % 256 = l2 := by omega
        rw [Nat.mod_eq_of_lt ht, Nat.mod_eq_of_lt hv1, Nat.mod_eq_of_lt hv2, e2, e3]
      have hdroplen : (t :: v1 :: v2 :: l1 :: l2 :: rest').drop r.encode.length
          = rest'.drop (l1 * 256 + l2) := by
        rw [henc]
        simp [List.length_take, min_eq_left hg]
      refine ⟨hvalid, ?_, ?_⟩
      · rw [hdroplen, henc]
        simp [List.take_append_drop]
      · rw [hdroplen]
        exact Prod.ext hframes.1 hframes.2
    · rw [if_neg hg] at h
      simp at h

/-- Every frame produced by deframing a buffer of bytes is a valid record. -/
theorem deframe_frames_valid (n : Nat) : ∀ (b : List Nat), b.length ≤ n →
    (∀ x ∈ b, x < 256) → ∀ r ∈ (deframe b).1, ValidRecord r := by
  induction n with
  | zero =>
    intro b hn _ r hr
    have : b = [] := List.eq_nil_of_length_eq_zero (Nat.le_zero.mp hn)
    rw [this, deframe_nil] at hr
    simp at hr
  | succ n ih =>
    intro b hn hb r hr
    rcases hfr : deframe b with ⟨frames, leftover⟩
    rw [hfr] at hr
    match frames, hr with
    | r0 :: rest, hr =>
      obtain ⟨hv0, _, hrec⟩ := deframe_cons_inv b hb r0 rest leftover hfr
      rcases List.mem_cons.mp hr with h0 | hmem
      · rwa [h0]
      · refine ih (b.drop r0.encode.length) ?_ ?_ r ?_
        · have h5 : 5 ≤ r0.encode.length := by
            rw [OpaqueMessage.encode_length]; omega
          have := List.length_drop r0.encode.length b
          omega
        · exact fun x hx => hb x (List.mem_of_mem_drop hx)
        · rw [hrec]; exact hmem

/-- Concrete evaluation of `take_message_from_outbound` on a buffer
holding one complete record followed by a single trailing byte. -/
theorem take_message_concrete_trailing :
    MemoryStream.take_message_from_outbound (fun _ => (none : Option Unit))
        ⟨⟨[], 0⟩, ⟨[22, 3, 3, 0, 1, 7, 22], 0⟩⟩
      = .ok (some ⟨none, ⟨22, 3, 3, [7]⟩⟩, ⟨⟨[], 0⟩, ⟨[], 0⟩⟩) := by
  unfold MemoryStream.take_message_from_outbound
  have : deframe [22, 3, 3, 0, 1, 7, 22]
      = ([⟨22, 3, 3, [7]⟩], [22]) := by
    have h1 : deframe [22] = ([], [22]) := deframe_short _ (by simp)
    have h2 := deframe_cons5 22 3 3 0 1 [7, 22]
    simp only [show (0 * 256 + 1 : Nat) = 1 by rfl] at h2
    rw [if_pos (by simp)] at h2
    simpa [h1] using h2
  rw [this]
  simp

/-- Counterexample to C2 as stated: with outbound holding one complete
record followed by a single trailing byte (a partial record), the call
returns `Some` but the trailing byte is dropped from the buffer rather
than left intact: the remaining buffer is `[]`, not the original contents
minus the consumed record (`[22]`). -/
theorem take_message_trailing_partial_discarded :
    MemoryStream.take_message_from_outbound (fun _ => (none : Option Unit))
        ⟨⟨[], 0⟩, ⟨[22, 3, 3, 0, 1, 7, 22], 0⟩⟩
      = .ok (some ⟨none, ⟨22, 3, 3, [7]⟩⟩, ⟨⟨[], 0⟩, ⟨[], 0⟩⟩) ∧
    [22, 3, 3, 0, 1, 7, 22].drop
        (OpaqueMessage.encode ⟨22, 3, 3, [7]⟩).length = [22] ∧
    ([22] : List Nat) ≠ [] :=
  ⟨take_message_concrete_trailing, by decide, by decide⟩

/-- C2 (amended): after `take_message_from_outbound` returns `Some`, the
remaining outbound bytes deframe to exactly the record sequence of the
original buffer minus the consumed record, with no leftover; trailing
bytes that do not yet form a complete record are discarded, which cannot
change the deframed record sequence because a deframer leftover never
contains a complete record. -/
theorem take_message_reparse_identical {μ : Type}
    (parse : OpaqueMessage → Option μ) (s : MemoryStream)
    (hb : ∀ x ∈ s.outbound.data, x < 256) (mr : MessageResult μ)
    (s' : MemoryStream)
    (h : s.take_message_from_outbound parse = .ok (some mr, s')) :
    (deframe s'.outbound.data).1
        = (deframe (s.outbound.data.drop mr.raw.encode.length)).1 ∧
      (deframe s'.outbound.data).2 = [] := by
  unfold MemoryStream.take_message_from_outbound at h
  rcases hfr : deframe s.outbound.data with ⟨frames, leftover⟩
  rw [hfr] at h
  match frames, h with
  | first :: rest, h =>
    simp only [Except.ok.injEq, Prod.mk.injEq, Option.some.injEq] at h
    obtain ⟨hmr, hs'⟩ := h
    have hraw : mr.raw = first := by rw [← hmr]
    obtain ⟨_, _, hrec⟩ := deframe_cons_inv s.outbound.data hb first rest leftover hfr
    have hrestvalid : ∀ x ∈ rest, ValidRecord x := by
      intro x hx
      refine deframe_frames_valid s.outbound.data.length s.outbound.data le_rfl hb x ?_
      rw [hfr]
      exact List.mem_cons_of_mem _ hx
    have hdata : s'.outbound.data = (rest.map OpaqueMessage.encode).flatten := by
      rw [← hs']
    rw [hdata, hraw, hrec, deframe_flatten_encode rest hrestvalid]
    exact ⟨rfl, rfl⟩

/-- Witness for the amended C2 at a concrete buffer with a trailing
partial record. -/
theorem take_message_reparse_identical_witness :
    (deframe ([] : List Nat)).1
        = (deframe ([22, 3, 3, 0, 1, 7, 22].drop
            (OpaqueMessage.encode ⟨22, 3, 3, [7]⟩).length)).1 ∧
      (deframe ([] : List Nat)).2 = [] := by
  have h := take_message_reparse_identical (fun _ => (none : Option Unit))
    ⟨⟨[], 0⟩, ⟨[22, 3, 3, 0, 1, 7, 22], 0⟩⟩ (by decide)
    ⟨none, ⟨22, 3, 3, [7]⟩⟩ ⟨⟨[], 0⟩, ⟨[], 0⟩⟩
    take_message_concrete_trailing
  exact h

/-! ## Claims C7 and C10 -/

/-- Counterexample to C7 as stated: with an unread inbound byte but a
zero-length destination buffer, `read` returns `WouldBlock` rather than
`Ok` with a positive count. -/
theorem read_unread_bytes_zero_buffer_wouldblock :
    (MemoryStream.mk ⟨[7], 0⟩ ⟨[], 0⟩).inbound.pos
        < (MemoryStream.mk ⟨[7], 0⟩ ⟨[], 0⟩).inbound.data.length ∧
      ((MemoryStream.mk ⟨[7], 0⟩ ⟨[], 0⟩).read 0).1 = .error .wouldBlock :=
  ⟨by decide, rfl⟩

/-- C7 (amended): when the inbound buffer has no unread bytes, `read`
returns a `WouldBlock` error rather than `Ok(0)` (EOF); and whenever
unread inbound bytes exist and the destination buffer has nonzero
length, `read` returns `Ok` with a positive count. -/
theorem read_wouldblock_on_empty (s : MemoryStream) (bufLen : Nat) :
    (s.inbound.data.length ≤ s.inbound.pos →
        (s.read bufLen).1 = .error .wouldBlock) ∧
      (0 < bufLen → s.inbound.pos < s.inbound.data.length →
        ∃ bs, (s.read bufLen).1 = .ok bs ∧ 0 < bs.length) := by
  constructor
  · intro hle
    unfold MemoryStream.read
    have hn : min bufLen (s.inbound.data.length - s.inbound.pos) = 0 := by omega
    simp [hn]
  · intro hbuf hpos
    unfold MemoryStream.read
    have hn : 0 < min bufLen (s.inbound.data.length - s.inbound.pos) := by omega
    rw [if_neg (by omega)]
    refine ⟨_, rfl, ?_⟩
    simp only [List.length_take, List.length_drop]
    omega

/-- Witness for C7: both conjuncts exercised at concrete streams. -/
theorem read_wouldblock_on_empty_witness :
    ((MemoryStream.mk ⟨[], 0⟩ ⟨[5], 2⟩).read 4).1 = .error .wouldBlock ∧
      ∃ bs, ((MemoryStream.mk ⟨[7, 8], 0⟩ ⟨[], 0⟩).read 4).1 = .ok bs
        ∧ 0 < bs.length :=
  ⟨(read_wouldblock_on_empty (MemoryStream.mk ⟨[], 0⟩ ⟨[5], 2⟩) 4).1 (by decide),
    (read_wouldblock_on_empty (MemoryStream.mk ⟨[7, 8], 0⟩ ⟨[], 0⟩) 4).2
      (by decide) (by decide)⟩

/-- C10: `read` never touches the outbound channel; a read that consumes
the last unread inbound byte empties the inbound buffer and resets its
cursor to 0 (returning every remaining unread byte), while a read that
leaves unread bytes only advances the cursor, so the bytes left unread
are exactly the old unread bytes minus the consumed prefix. -/
theorem read_frame_conditions (s : MemoryStream) (bufLen : Nat) :
    ((s.read bufLen).2.outbound = s.outbound) ∧
      (s.inbound.pos < s.inbound.data.length →
        s.inbound.data.length ≤ s.inbound.pos + bufLen →
        (s.read bufLen).2.inbound = ⟨[], 0⟩ ∧
          (s.read bufLen).1 = .ok (s.inbound.data.drop s.inbound.pos)) ∧
      (s.inbound.pos + bufLen < s.inbound.data.length →
        (s.read bufLen).2.inbound = ⟨s.inbound.data, s.inbound.pos + bufLen⟩ ∧
          (s.read bufLen).2.inbound.data.drop (s.read bufLen).2.inbound.pos
            = (s.inbound.data.drop s.inbound.pos).drop bufLen) := by
  refine ⟨?_, ?_, ?_⟩
  · dsimp only [MemoryStream.read]
    split <;> rfl
  · intro hpos hall
    have hn : min bufLen (s.inbound.data.length - s.inbound.pos)
        = s.inbound.data.length - s.inbound.pos := by omega
    dsimp only [MemoryStream.read]
    rw [hn, if_neg (show ¬(s.inbound.data.length - s.inbound.pos = 0) by omega),
      if_pos (show s.inbound.pos + (s.inbound.data.length - s.inbound.pos)
        = s.inbound.data.length by omega)]
    refine ⟨rfl, ?_⟩
    have htake : List.take (s.inbound.data.length - s.inbound.pos)
        (List.drop s.inbound.pos s.inbound.data)
        = List.drop s.inbound.pos s.inbound.data :=
      List.take_of_length_le (by simp)
    simp only [htake]
  · intro hlt
    have hn : min bufLen (s.inbound.data.length - s.inbound.pos) = bufLen := by omega
    dsimp only [MemoryStream.read]
    rw [hn, if_neg (show ¬ (s.inbound.pos + bufLen = s.inbound.data.length) by omega)]
    by_cases hz : bufLen = 0
    · rw [if_pos hz]
      exact ⟨rfl, by simp [hz]⟩
    · rw [if_neg hz]
      refine ⟨rfl, ?_⟩
      rw [List.drop_drop, Nat.add_comm]

/-- Witness for C10: both read shapes at concrete streams. -/
theorem read_frame_conditions_witness :
    (((MemoryStream.mk ⟨[7, 8], 1⟩ ⟨[9], 0⟩).read 4).2.outbound = ⟨[9], 0⟩ ∧
        ((MemoryStream.mk ⟨[7, 8], 1⟩ ⟨[9], 0⟩).read 4).2.inbound = ⟨[], 0⟩ ∧
        ((MemoryStream.mk ⟨[7, 8], 1⟩ ⟨[9], 0⟩).read 4).1 = .ok [8]) ∧
      ((MemoryStream.mk ⟨[7, 8], 0⟩ ⟨[], 0⟩).read 1).2.inbound = ⟨[7, 8], 1⟩ := by
  have h1 := read_frame_conditions (MemoryStream.mk ⟨[7, 8], 1⟩ ⟨[9], 0⟩) 4
  have h2 := read_frame_conditions (MemoryStream.mk ⟨[7, 8], 0⟩ ⟨[], 0⟩) 1
  exact ⟨⟨h1.1, (h1.2.1 (by decide) (by decide)).1,
    (h1.2.1 (by decide) (by decide)).2⟩, (h2.2.2 (by decide)).1⟩

/-! ## Typed term algebra

The sources of `term/term.rs`, `term/signature.rs`, `term/atoms.rs` and
`fuzzer/mutations.rs` are outside this snapshot (only `term/mod.rs`,
`term/macros.rs` and their callers/tests are present).  Modelled from the
spec (§3, §4.3, §4.8): terms are variables or function applications;
well-typedness requires each application's children to evaluate to exactly
the function's declared argument TypeShapes in order. -/

/-- Modelled from the spec: a `TypeShape` is an opaque runtime type
identifier, comparable for equality (§3). -/
abbrev TypeShape := Nat

/-- Modelled from the spec: a `FunctionShape` carries the ordered argument
TypeShapes and the return TypeShape (§3); arity is the argument count. -/
structure FunctionShape where
  argumentTypes : List TypeShape
  ret : TypeShape
deriving DecidableEq, Repr

/-- Modelled from the spec: a function symbol with a stable id and its
shape (§3). -/
structure Function where
  id : Nat
  shape : FunctionShape
deriving DecidableEq, Repr

/-- Modelled from the spec: a variable symbol; only the fields relevant to
typing and knowledge lookup are carried (§3). -/
structure Variable where
  typ : TypeShape
  agent : Nat
  counter : Nat
deriving DecidableEq, Repr

/-- Modelled from the spec: `Term` is a Variable leaf or an Application
node with an ordered list of children (§3). -/
inductive Term where
  | Variable (v : Variable)
  | Application (f : Function) (args : List Term)
deriving Repr

/-- The result TypeShape of a term: a variable's type, or the applied
function's return type. -/
def Term.typeOf : Term → TypeShape
  | .Variable v => v.typ
  | .Application f _ => f.shape.ret

mutual

/-- Modelled from the spec: well-typedness — a Variable is well-typed; an
Application is well-typed iff its children are and their result
TypeShapes equal the function's declared argument TypeShapes in order
(§3 invariant). -/
def Term.wellTyped : Term → Bool
  | .Variable _ => true
  | .Application f args =>
    decide (args.map Term.typeOf = f.shape.argumentTypes) && Term.wellTypedList args

/-- All terms in the list are well-typed. -/
def Term.wellTypedList : List Term → Bool
  | [] => true
  | t :: ts => t.wellTyped && Term.wellTypedList ts

end

mutual

/-- `Term::length` / `size`: the node count (§4.3). -/
def Term.size : Term → Nat
  | .Variable _ => 1
  | .Application _ args => 1 + Term.sizeList args

/-- Total node count of a list of terms. -/
def Term.sizeList : List Term → Nat
  | [] => 0
  | t :: ts => t.size + Term.sizeList ts

end

/-- The subterm at a path of child indices from the root (§4.3
`get_at_path`). -/
def Term.subtermAt : Term → List Nat → Option Term
  | t, [] => some t
  | .Variable _, _ :: _ => none
  | .Application _ args, i :: p =>
    match args.get? i with
    | some c => c.subtermAt p
    | none => none

/-- `replace_at_path` (§4.3): replace the subterm at a path, failing when
the path is invalid or the replacement's result TypeShape differs from
the hole's expected TypeShape. -/
def Term.replaceAtPath (t : Term) (p : List Nat) (n : Term) : Option Term :=
  match p, t with
  | [], t => if n.typeOf = t.typeOf then some n else none
  | _ :: _, .Variable _ => none
  | i :: rest, .Application f args =>
    match args.get? i with
    | some c =>
      match c.replaceAtPath rest n with
      | some c' => some (.Application f (args.set i c'))
      | none => none
    | none => none

mutual

/-- All (path, subterm) pairs of a term, in depth-first pre-order
(§4.3 `traverse_from_root` paired with the paths leading there). -/
def Term.sites : Term → List (List Nat × Term)
  | .Variable v => [([], .Variable v)]
  | .Application f args => ([], .Application f args) :: Term.sitesIdx 0 args

/-- Sites of a list of children, with the child index prepended. -/
def Term.sitesIdx : Nat → List Term → List (List Nat × Term)
  | _, [] => []
  | i, t :: ts => (t.sites.map fun s => (i :: s.1, s.2)) ++ Term.sitesIdx (i + 1) ts

end

/-! ## Traces and mutators (modelled from the spec, §3 / §4.8) -/

/-- Modelled from the spec: an Input action carries the recipe term. -/
structure InputAction where
  recipe : Term
deriving Repr

/-- Modelled from the spec: a step's action is Input (deliver an evaluated
recipe) or Output (drain the agent's outbound channel). -/
inductive Action where
  | input (a : InputAction)
  | output
deriving Repr

/-- Modelled from the spec: a step binds an agent name to an action. -/
structure Step where
  agent : Nat
  action : Action
deriving Repr

/-- Modelled from the spec: a trace is an ordered list of steps (the agent
descriptors are irrelevant to typing and omitted). -/
structure Trace where
  steps : List Step
deriving Repr

/-- A trace is well-typed when every input recipe is. -/
def Trace.wellTyped (tr : Trace) : Bool :=
  tr.steps.all fun st =>
    match st.action with
    | .input a => a.recipe.wellTyped
    | .output => true

/-- All (step index, path, subterm) sites over the trace's input
recipes. -/
def Trace.recipeSites (tr : Trace) : List (Nat × List Nat × Term) :=
  tr.steps.enum.flatMap fun si =>
    match si.2.action with
    | .input a => a.recipe.sites.map fun s => (si.1, s.1, s.2)
    | .output => []

/-- Replace the subterm at a path inside the recipe of the given step,
failing when the step is not an input step or the term replacement
fails. -/
def Trace.replaceRecipeAt (tr : Trace) (si : Nat) (p : List Nat) (n : Term) :
    Option Trace :=
  match tr.steps.get? si with
  | some st =>
    match st.action with
    | .input a =>
      match a.recipe.replaceAtPath p n with
      | some r => some ⟨tr.steps.set si { st with action := .input ⟨r⟩ }⟩
      | none => none
    | .output => none
  | none => none

/-- `libafl::mutators::MutationResult`. -/
inductive MutationResult where
  | mutated
  | skipped
deriving DecidableEq, Repr

/-- `TermConstraints { min_term_size, max_term_size }` (§4.8). -/
structure TermConstraints where
  min_term_size : Nat
  max_term_size : Nat
deriving Repr

/-- The constraint filter applied to candidate subterms. -/
def TermConstraints.admits (cs : TermConstraints) (t : Term) : Bool :=
  cs.min_term_size ≤ t.size && t.size ≤ cs.max_term_size

/-- Uniform random selection from a candidate list, with the rng draw
given as a natural number; `none` exactly when no candidate exists. -/
def pick {α : Type} (l : List α) (c : Nat) : Option α :=
  l.get? (c % l.length)

/-- A trace site together with the index/path position needed to address
it: `(step index, path, subterm)`. -/
abbrev TraceSite := Nat × List Nat × Term

/-- The ReplaceReuse candidate pairs: a target site and a source site,
both within the size constraints, with equal result TypeShapes. -/
def replaceReuseCands (cs : TermConstraints) (tr : Trace) :
    List (TraceSite × TraceSite) :=
  (tr.recipeSites.filter fun s => cs.admits s.2.2).flatMap fun tgt =>
    ((tr.recipeSites.filter fun s => cs.admits s.2.2).filter fun src =>
      src.2.2.typeOf == tgt.2.2.typeOf).map fun src => (tgt, src)

/-- Modelled from the spec (§4.8): ReplaceReuse — pick a subterm `S` in
some input recipe and another subterm `T` elsewhere in the trace whose
return TypeShape equals `S`'s, both within the size constraints, and
overwrite `S` with a clone of `T`; skip when no candidate pair exists. -/
def ReplaceReuseMutator (cs : TermConstraints) (c : Nat) (tr : Trace) :
    MutationResult × Trace :=
  match pick (replaceReuseCands cs tr) c with
  | some (tgt, src) =>
    match tr.replaceRecipeAt tgt.1 tgt.2.1 src.2.2 with
    | some tr' => (.mutated, tr')
    | none => (.skipped, tr)
  | none => (.skipped, tr)

/-- Whether `g` is an eligible ReplaceMatch replacement at the subterm
`t`: `t` is a 0-arity Application and `g` is a different 0-arity function
with the same return type. -/
def constSwapOk : Term → Function → Bool
  | .Application f [], g =>
    decide (g.shape.argumentTypes = ([] : List TypeShape)) &&
      decide (g.shape.ret = f.shape.ret) && !decide (g = f)
  | _, _ => false

/-- The ReplaceMatch candidates: a 0-arity Application site paired with an
eligible replacement function from the signature. -/
def replaceMatchCands (sig : List Function) (tr : Trace) :
    List (TraceSite × Function) :=
  tr.recipeSites.flatMap fun s =>
    (sig.filter fun g => constSwapOk s.2.2 g).map fun g => (s, g)

/-- Modelled from the spec (§4.8): ReplaceMatch — pick a 0-arity
Application subterm and replace its function symbol with a different
0-arity function of the same return type drawn from the signature. -/
def ReplaceMatchMutator (sig : List Function) (c : Nat) (tr : Trace) :
    MutationResult × Trace :=
  match pick (replaceMatchCands sig tr) c with
  | some (s, g) =>
    match tr.replaceRecipeAt s.1 s.2.1 (.Application g []) with
    | some tr' => (.mutated, tr')
    | none => (.skipped, tr)
  | none => (.skipped, tr)

/-- The children of an Application whose return type equals the parent's
return type (the lift candidates of Remove-and-Lift). -/
def Term.liftableChildren : Term → List Term
  | .Application f args => args.filter fun ch => ch.typeOf == f.shape.ret
  | .Variable _ => []

/-- The Remove-and-Lift candidates: an Application site paired with one of
its same-return-type children. -/
def removeLiftCands (tr : Trace) : List (TraceSite × Term) :=
  tr.recipeSites.flatMap fun s =>
    s.2.2.liftableChildren.map fun ch => (s, ch)

/-- Modelled from the spec (§4.8): Remove-and-Lift — pick an Application
node with a child of the same return type and replace the node with that
child. -/
def RemoveAndLiftMutator (c : Nat) (tr : Trace) : MutationResult × Trace :=
  match pick (removeLiftCands tr) c with
  | some (s, ch) =>
    match tr.replaceRecipeAt s.1 s.2.1 ch with
    | some tr' => (.mutated, tr')
    | none => (.skipped, tr)
  | none => (.skipped, tr)

/-- Modelled from the spec (§4.8): Repeat — pick a step and duplicate it
immediately after itself. -/
def RepeatMutator (c : Nat) (tr : Trace) : MutationResult × Trace :=
  match pick (List.range tr.steps.length) c with
  | some i =>
    match tr.steps.get? i with
    | some st => (.mutated, ⟨tr.steps.take (i + 1) ++ st :: tr.steps.drop (i + 1)⟩)
    | none => (.skipped, tr)
  | none => (.skipped, tr)

/-- The Swap candidates: two sites of equal result TypeShape at distinct
positions. -/
def swapCands (tr : Trace) : List (TraceSite × TraceSite) :=
  tr.recipeSites.flatMap fun a =>
    (tr.recipeSites.filter fun b =>
      (a.2.2.typeOf == b.2.2.typeOf) && !((a.1, a.2.1) == (b.1, b.2.1))).map fun b => (a, b)

/-- Modelled from the spec (§4.8): Swap — pick two same-type subterms at
distinct positions (within one recipe or across recipes) and exchange
them, rolling back to the unchanged trace if either replacement fails. -/
def SwapMutator (c : Nat) (tr : Trace) : MutationResult × Trace :=
  match pick (swapCands tr) c with
  | some (a, b) =>
    match tr.replaceRecipeAt a.1 a.2.1 b.2.2 with
    | some tr1 =>
      match tr1.replaceRecipeAt b.1 b.2.1 a.2.2 with
      | some tr2 => (.mutated, tr2)
      | none => (.skipped, tr)
    | none => (.skipped, tr)
  | none => (.skipped, tr)

mutual

/-- Modelled from the spec (§4.8): the Generate mutator's term
synthesiser — produce a fresh well-typed term of the requested type by
picking a signature function of that return type and generating its
arguments recursively, bounded by the fuel (the size bound). -/
def generateTerm (sig : List Function) : Nat → List Nat → TypeShape →
    Option (Term × List Nat)
  | 0, _, _ => none
  | fuel + 1, rng, ty =>
    match pick (sig.filter fun g => g.shape.ret == ty) (rng.headD 0) with
    | some g =>
      match generateArgs sig fuel rng.tail g.shape.argumentTypes with
      | some (args, rng') => some (.Application g args, rng')
      | none => none
    | none => none
termination_by fuel _ _ => (fuel, 0)

/-- Generate one term per requested argument type, threading the rng. -/
def generateArgs (sig : List Function) : Nat → List Nat → List TypeShape →
    Option (List Term × List Nat)
  | _, rng, [] => some ([], rng)
  | 0, _, _ :: _ => none
  | fuel + 1, rng, ty :: tys =>
    match generateTerm sig (fuel + 1) rng ty with
    | some (t, rng') =>
      match generateArgs sig (fuel + 1) rng' tys with
      | some (ts, rng'') => some (t :: ts, rng'')
      | none => none
    | none => none
termination_by fuel _ tys => (fuel, tys.length + 1)

end

/-- Modelled from the spec (§4.8): Generate — pick a subterm position and
replace it with a freshly synthesised well-typed term of the same type,
bounded by `max_term_size`. -/
def GenerateMutator (cs : TermConstraints) (sig : List Function) (c : Nat)
    (rng : List Nat) (tr : Trace) : MutationResult × Trace :=
  match pick tr.recipeSites c with
  | some s =>
    match generateTerm sig cs.max_term_size rng s.2.2.typeOf with
    | some (t, _) =>
      match tr.replaceRecipeAt s.1 s.2.1 t with
      | some tr' => (.mutated, tr')
      | none => (.skipped, tr)
    | none => (.skipped, tr)
  | none => (.skipped, tr)

/-- The family of trace mutators (§4.8). -/
inductive Mutator where
  | replaceReuse
  | replaceMatch
  | removeAndLift
  | repeatStep
  | swap
  | generate
deriving DecidableEq, Repr

/-- Dispatch a mutator on a trace with its rng draws. -/
def Mutator.mutate (m : Mutator) (cs : TermConstraints) (sig : List Function)
    (c : Nat) (rng : List Nat) (tr : Trace) : MutationResult × Trace :=
  match m with
  | .replaceReuse => ReplaceReuseMutator cs c tr
  | .replaceMatch => ReplaceMatchMutator sig c tr
  | .removeAndLift => RemoveAndLiftMutator c tr
  | .repeatStep => RepeatMutator c tr
  | .swap => SwapMutator c tr
  | .generate => GenerateMutator cs sig c rng tr

/-! ## Well-typedness preservation lemmas -/

theorem Term.wellTypedList_iff (l : List Term) :
    Term.wellTypedList l = true ↔ ∀ t ∈ l, t.wellTyped = true := by
  induction l with
  | nil => simp [Term.wellTypedList]
  | cons t ts ih => simp [Term.wellTypedList, Bool.and_eq_true, ih]

theorem Term.wellTyped_app_iff (f : Function) (args : List Term) :
    (Term.Application f args).wellTyped = true ↔
      args.map Term.typeOf = f.shape.argumentTypes ∧
        Term.wellTypedList args = true := by
  simp [Term.wellTyped, Bool.and_eq_true, decide_eq_true_iff]

/-- Writing back the element already stored at an index leaves the list
unchanged. -/
theorem list_set_get_self {α : Type} (l : List α) (i : Nat) (a : α)
    (h : l.get? i = some a) : l.set i a = l := by
  induction l generalizing i with
  | nil => simp at h
  | cons x xs ih =>
    cases i with
    | zero =>
      simp only [List.get?_cons_zero, Option.some.injEq] at h
      simp [h]
    | succ n =>
      simp only [List.get?_cons_succ] at h
      simp [ih n h]

/-- `replace_at_path` preserves well-typedness and the root's result
TypeShape whenever it succeeds on a well-typed term with a well-typed
replacement. -/
theorem Term.replaceAtPath_wellTyped :
    ∀ (p : List Nat) (t n t' : Term), t.wellTyped = true → n.wellTyped = true →
      t.replaceAtPath p n = some t' →
      t'.wellTyped = true ∧ t'.typeOf = t.typeOf := by
  intro p
  induction p with
  | nil =>
    intro t n t' ht hn h
    unfold Term.replaceAtPath at h
    split at h
    · rename_i hcond
      cases h
      exact ⟨hn, hcond⟩
    · cases h
  | cons i rest ih =>
    intro t n t' ht hn h
    match t with
    | .Variable v => simp [Term.replaceAtPath] at h
    | .Application f args =>
      unfold Term.replaceAtPath at h
      split at h
      case _ c hg =>
        split at h
        case _ c' hr =>
          cases h
          have hargs := (Term.wellTyped_app_iff f args).mp ht
          have hc : c.wellTyped = true :=
            (Term.wellTypedList_iff args).mp hargs.2 c (List.get?_mem hg)
          obtain ⟨hc', hty⟩ := ih c n c' hc hn hr
          refine ⟨?_, rfl⟩
          rw [Term.wellTyped_app_iff]
          constructor
          · rw [List.map_set, hty]
            have hmapped : (args.map Term.typeOf).get? i = some c.typeOf := by
              rw [List.get?_map, hg]; rfl
            rw [list_set_get_self _ _ _ hmapped]
            exact hargs.1
          · rw [Term.wellTypedList_iff]
            intro x hx
            rcases List.mem_or_eq_of_mem_set hx with hmem | rfl
            · exact (Term.wellTypedList_iff args).mp hargs.2 x hmem
            · exact hc'
        case _ => cases h
      case _ => cases h

mutual

/-- All subterms reached through `sites` of a well-typed term are
well-typed. -/
theorem Term.sites_wellTyped : ∀ (t : Term), t.wellTyped = true →
    ∀ s ∈ t.sites, s.2.wellTyped = true
  | .Variable v, ht, s, hs => by
    simp only [Term.sites, List.mem_singleton] at hs
    rw [hs]
    exact ht
  | .Application f args, ht, s, hs => by
    simp only [Term.sites, List.mem_cons] at hs
    rcases hs with rfl | hs
    · exact ht
    · exact Term.sitesIdx_wellTyped 0 args
        ((Term.wellTyped_app_iff f args).mp ht).2 s hs

/-- All subterms reached through `sitesIdx` of well-typed children are
well-typed. -/
theorem Term.sitesIdx_wellTyped : ∀ (i : Nat) (args : List Term),
    Term.wellTypedList args = true →
    ∀ s ∈ Term.sitesIdx i args, s.2.wellTyped = true
  | _, [], _, s, hs => by simp [Term.sitesIdx] at hs
  | i, t :: ts, h, s, hs => by
    simp only [Term.wellTypedList, Bool.and_eq_true] at h
    simp only [Term.sitesIdx, List.mem_append, List.mem_map] at hs
    rcases hs with ⟨s0, hs0, rfl⟩ | hs
    · exact Term.sites_wellTyped t h.1 s0 hs0
    · exact Term.sitesIdx_wellTyped (i + 1) ts h.2 s hs

end

/-- All subterms reached through `recipeSites` of a well-typed trace are
well-typed. -/
theorem Trace.recipeSites_wellTyped (tr : Trace) (h : tr.wellTyped = true) :
    ∀ s ∈ tr.recipeSites, s.2.2.wellTyped = true := by
  intro s hs
  simp only [Trace.recipeSites, List.mem_flatMap] at hs
  obtain ⟨⟨i, st⟩, hmem, hs⟩ := hs
  cases hact : st.action with
  | output => rw [hact] at hs; simp at hs
  | input a =>
    rw [hact] at hs
    simp only [List.mem_map] at hs
    obtain ⟨s0, hs0, rfl⟩ := hs
    have hst : st ∈ tr.steps := by
      have hidx := List.mem_enum hmem
      rw [hidx.2]
      exact List.getElem_mem hidx.1
    have hrec : a.recipe.wellTyped = true := by
      have hall := List.all_eq_true.mp h st hst
      rw [hact] at hall
      exact hall
    exact Term.sites_wellTyped a.recipe hrec s0 hs0

/-- `replaceRecipeAt` preserves trace well-typedness when it succeeds
with a well-typed replacement term. -/
theorem Trace.replaceRecipeAt_wellTyped (tr : Trace) (si : Nat) (p : List Nat)
    (n : Term) (tr' : Trace) (htr : tr.wellTyped = true)
    (hn : n.wellTyped = true) (h : tr.replaceRecipeAt si p n = some tr') :
    tr'.wellTyped = true := by
  unfold Trace.replaceRecipeAt at h
  split at h
  case _ st hg =>
    split at h
    case _ a hact =>
      split at h
      case _ r hr =>
        cases h
        have hrec : a.recipe.wellTyped = true := by
          have := List.all_eq_true.mp htr st (List.get?_mem hg)
          rw [hact] at this
          exact this
        have hr' := (Term.replaceAtPath_wellTyped p a.recipe n r hrec hn hr).1
        unfold Trace.wellTyped
        apply List.all_eq_true.mpr
        intro x hx
        rcases List.mem_or_eq_of_mem_set hx with hmem | rfl
        · exact List.all_eq_true.mp htr x hmem
        · exact hr'
      case _ => cases h
    case _ hact => cases h
  case _ => cases h

/-- Picking from a candidate list yields a member of it. -/
theorem pick_mem {α : Type} {l : List α} {c : Nat} {a : α}
    (h : pick l c = some a) : a ∈ l :=
  List.get?_mem h

/-- A mutator outcome either skipped with the trace unchanged, or mutated
with the result well-typed. -/
def PreservesWT (res : MutationResult × Trace) (tr : Trace) : Prop :=
  (res.1 = .skipped ∧ res.2 = tr) ∨ (res.1 = .mutated ∧ res.2.wellTyped = true)

theorem replaceReuse_preserves (cs : TermConstraints) (c : Nat) (tr : Trace)
    (h : tr.wellTyped = true) : PreservesWT (ReplaceReuseMutator cs c tr) tr := by
  unfold ReplaceReuseMutator
  cases hp : pick (replaceReuseCands cs tr) c with
  | none => exact Or.inl ⟨rfl, rfl⟩
  | some pr =>
    obtain ⟨tgt, src⟩ := pr
    dsimp only
    have hsrc : src.2.2.wellTyped = true := by
      have hmem := pick_mem hp
      unfold replaceReuseCands at hmem
      simp only [List.mem_flatMap, List.mem_map, List.mem_filter] at hmem
      obtain ⟨t0, _, src0, ⟨⟨hsrc0, _⟩, _⟩, heq⟩ := hmem
      obtain ⟨rfl, rfl⟩ := Prod.mk.injEq .. ▸ heq
      exact Trace.recipeSites_wellTyped tr h src0 hsrc0
    cases hr : tr.replaceRecipeAt tgt.1 tgt.2.1 src.2.2 with
    | none => exact Or.inl ⟨rfl, rfl⟩
    | some tr' =>
      exact Or.inr ⟨rfl, Trace.replaceRecipeAt_wellTyped tr _ _ _ _ h hsrc hr⟩

/-- An eligible ReplaceMatch replacement function takes no arguments. -/
theorem constSwapOk_noArgs {t : Term} {g : Function}
    (h : constSwapOk t g = true) : g.shape.argumentTypes = [] := by
  match t with
  | .Variable v => simp [constSwapOk] at h
  | .Application f [] =>
    simp only [constSwapOk, Bool.and_eq_true, decide_eq_true_iff] at h
    exact h.1.1
  | .Application f (x :: xs) => simp [constSwapOk] at h

theorem replaceMatch_preserves (sig : List Function) (c : Nat) (tr : Trace)
    (h : tr.wellTyped = true) : PreservesWT (ReplaceMatchMutator sig c tr) tr := by
  unfold ReplaceMatchMutator
  cases hp : pick (replaceMatchCands sig tr) c with
  | none => exact Or.inl ⟨rfl, rfl⟩
  | some pr =>
    obtain ⟨s, g⟩ := pr
    dsimp only
    have hg : (Term.Application g []).wellTyped = true := by
      have hmem := pick_mem hp
      unfold replaceMatchCands at hmem
      simp only [List.mem_flatMap, List.mem_map, List.mem_filter] at hmem
      obtain ⟨s0, _, g0, ⟨_, hok⟩, heq⟩ := hmem
      obtain ⟨rfl, rfl⟩ := Prod.mk.injEq .. ▸ heq
      rw [Term.wellTyped_app_iff]
      exact ⟨by rw [constSwapOk_noArgs hok]; rfl, rfl⟩
    cases hr : tr.replaceRecipeAt s.1 s.2.1 (.Application g []) with
    | none => exact Or.inl ⟨rfl, rfl⟩
    | some tr' =>
      exact Or.inr ⟨rfl, Trace.replaceRecipeAt_wellTyped tr _ _ _ _ h hg hr⟩

/-- Lift candidates are children of the term. -/
theorem liftableChildren_wellTyped {t : Term} (ht : t.wellTyped = true)
    {ch : Term} (h : ch ∈ t.liftableChildren) : ch.wellTyped = true := by
  match t with
  | .Variable v => simp [Term.liftableChildren] at h
  | .Application f args =>
    simp only [Term.liftableChildren] at h
    exact (Term.wellTypedList_iff args).mp
      ((Term.wellTyped_app_iff f args).mp ht).2 ch (List.mem_of_mem_filter h)

theorem removeAndLift_preserves (c : Nat) (tr : Trace)
    (h : tr.wellTyped = true) : PreservesWT (RemoveAndLiftMutator c tr) tr := by
  unfold RemoveAndLiftMutator
  cases hp : pick (removeLiftCands tr) c with
  | none => exact Or.inl ⟨rfl, rfl⟩
  | some pr =>
    obtain ⟨s, ch⟩ := pr
    dsimp only
    have hch : ch.wellTyped = true := by
      have hmem := pick_mem hp
      unfold removeLiftCands at hmem
      simp only [List.mem_flatMap, List.mem_map] at hmem
      obtain ⟨s0, hs0, ch0, hch0, heq⟩ := hmem
      obtain ⟨rfl, rfl⟩ := Prod.mk.injEq .. ▸ heq
      exact liftableChildren_wellTyped (Trace.recipeSites_wellTyped tr h s0 hs0) hch0
    cases hr : tr.replaceRecipeAt s.1 s.2.1 ch with
    | none => exact Or.inl ⟨rfl, rfl⟩
    | some tr' =>
      exact Or.inr ⟨rfl, Trace.replaceRecipeAt_wellTyped tr _ _ _ _ h hch hr⟩

theorem repeat_preserves (c : Nat) (tr : Trace)
    (h : tr.wellTyped = true) : PreservesWT (RepeatMutator c tr) tr := by
  unfold RepeatMutator
  cases hp : pick (List.range tr.steps.length) c with
  | none => exact Or.inl ⟨rfl, rfl⟩
  | some i =>
    dsimp only
    cases hg : tr.steps.get? i with
    | none => exact Or.inl ⟨rfl, rfl⟩
    | some st =>
      refine Or.inr ⟨rfl, ?_⟩
      unfold Trace.wellTyped
      apply List.all_eq_true.mpr
      intro x hx
      simp only [List.mem_append, List.mem_cons] at hx
      have hxmem : x ∈ tr.steps := by
        rcases hx with hx | rfl | hx
        · exact List.mem_of_mem_take hx
        · exact List.get?_mem hg
        · exact List.mem_of_mem_drop hx
      exact List.all_eq_true.mp h x hxmem

theorem swap_preserves (c : Nat) (tr : Trace)
    (h : tr.wellTyped = true) : PreservesWT (SwapMutator c tr) tr := by
  unfold SwapMutator
  cases hp : pick (swapCands tr) c with
  | none => exact Or.inl ⟨rfl, rfl⟩
  | some pr =>
    obtain ⟨a, b⟩ := pr
    dsimp only
    have hmem := pick_mem hp
    unfold swapCands at hmem
    simp only [List.mem_flatMap, List.mem_map, List.mem_filter] at hmem
    obtain ⟨a0, ha0, b0, ⟨hb0, _⟩, heq⟩ := hmem
    obtain ⟨rfl, rfl⟩ := Prod.mk.injEq .. ▸ heq
    have hwa : a0.2.2.wellTyped = true := Trace.recipeSites_wellTyped tr h a0 ha0
    have hwb : b0.2.2.wellTyped = true := Trace.recipeSites_wellTyped tr h b0 hb0
    cases hr1 : tr.replaceRecipeAt a0.1 a0.2.1 b0.2.2 with
    | none => exact Or.inl ⟨rfl, rfl⟩
    | some tr1 =>
      dsimp only
      have h1 : tr1.wellTyped = true :=
        Trace.replaceRecipeAt_wellTyped tr _ _ _ _ h hwb hr1
      cases hr2 : tr1.replaceRecipeAt b0.1 b0.2.1 a0.2.2 with
      | none => exact Or.inl ⟨rfl, rfl⟩
      | some tr2 =>
        exact Or.inr ⟨rfl, Trace.replaceRecipeAt_wellTyped tr1 _ _ _ _ h1 hwa hr2⟩

/-- The Generate synthesiser only produces well-typed terms of the
requested type. -/
theorem generate_sound (sig : List Function) : ∀ fuel : Nat,
    (∀ rng ty t rng', generateTerm sig fuel rng ty = some (t, rng') →
      t.wellTyped = true ∧ t.typeOf = ty) ∧
    (∀ rng tys args rng', generateArgs sig fuel rng tys = some (args, rng') →
      Term.wellTypedList args = true ∧ args.map Term.typeOf = tys) := by
  intro fuel
  induction fuel with
  | zero =>
    constructor
    · intro rng ty t rng' h
      simp [generateTerm] at h
    · intro rng tys args rng' h
      cases tys with
      | nil =>
        simp only [generateArgs, Option.some.injEq, Prod.mk.injEq] at h
        rw [← h.1]
        exact ⟨rfl, rfl⟩
      | cons ty tys => simp [generateArgs] at h
  | succ fuel ih =>
    have hterm : ∀ rng ty t rng', generateTerm sig (fuel + 1) rng ty = some (t, rng') →
        t.wellTyped = true ∧ t.typeOf = ty := by
      intro rng ty t rng' h
      unfold generateTerm at h
      split at h
      case _ g hpick =>
        split at h
        case _ args rng2 hargs =>
          simp only [Option.some.injEq, Prod.mk.injEq] at h
          obtain ⟨ht, -⟩ := h
          subst ht
          have ha := ih.2 rng.tail g.shape.argumentTypes args rng2 hargs
          have hret : g.shape.ret = ty := by
            have hm := (List.mem_filter.mp (pick_mem hpick)).2
            simpa using hm
          constructor
          · rw [Term.wellTyped_app_iff]
            exact ⟨ha.2, ha.1⟩
          · simpa [Term.typeOf] using hret
        case _ => cases h
      case _ => cases h
    have hargs : ∀ rng tys args rng', generateArgs sig (fuel + 1) rng tys = some (args, rng') →
        Term.wellTypedList args = true ∧ args.map Term.typeOf = tys := by
      intro rng tys
      induction tys generalizing rng with
      | nil =>
        intro args rng' h
        simp only [generateArgs, Option.some.injEq, Prod.mk.injEq] at h
        rw [← h.1]
        exact ⟨rfl, rfl⟩
      | cons ty tys ihts =>
        intro args rng' h
        unfold generateArgs at h
        split at h
        case _ t rng2 hg =>
          split at h
          case _ ts rng3 ha =>
            simp only [Option.some.injEq, Prod.mk.injEq] at h
            obtain ⟨hlist, -⟩ := h
            rw [← hlist]
            have h1 := hterm rng ty t rng2 hg
            have h2 := ihts rng2 ts rng3 ha
            constructor
            · simp only [Term.wellTypedList, Bool.and_eq_true]
              exact ⟨h1.1, h2.1⟩
            · simp [h1.2, h2.2]
          case _ => cases h
        case _ => cases h
    exact ⟨hterm, hargs⟩

theorem generate_preserves (cs : TermConstraints) (sig : List Function)
    (c : Nat) (rng : List Nat) (tr : Trace) (h : tr.wellTyped = true) :
    PreservesWT (GenerateMutator cs sig c rng tr) tr := by
  unfold GenerateMutator
  cases hp : pick tr.recipeSites c with
  | none => exact Or.inl ⟨rfl, rfl⟩
  | some s =>
    dsimp only
    cases hgen : generateTerm sig cs.max_term_size rng s.2.2.typeOf with
    | none => exact Or.inl ⟨rfl, rfl⟩
    | some pr =>
      obtain ⟨t, rng'⟩ := pr
      dsimp only
      have ht : t.wellTyped = true :=
        ((generate_sound sig cs.max_term_size).1 rng s.2.2.typeOf t rng' hgen).1
      cases hr : tr.replaceRecipeAt s.1 s.2.1 t with
      | none => exact Or.inl ⟨rfl, rfl⟩
      | some tr' =>
        exact Or.inr ⟨rfl, Trace.replaceRecipeAt_wellTyped tr _ _ _ _ h ht hr⟩

/-! ## Claim C3 -/

/-- C3: for every well-typed trace, every mutator of the family and every
rng draw, the mutator either returns Skipped with the trace unchanged or
returns Mutated with the resulting trace well-typed (every Application
node has exactly arity children whose result TypeShapes equal the
function's declared argument TypeShapes in order). -/
theorem mutators_preserve_well_typedness (m : Mutator) (cs : TermConstraints)
    (sig : List Function) (c : Nat) (rng : List Nat) (tr : Trace)
    (h : tr.wellTyped = true) :
    ((m.mutate cs sig c rng tr).1 = .skipped ∧ (m.mutate cs sig c rng tr).2 = tr) ∨
      ((m.mutate cs sig c rng tr).1 = .mutated ∧
        (m.mutate cs sig c rng tr).2.wellTyped = true) := by
  cases m with
  | replaceReuse => exact replaceReuse_preserves cs c tr h
  | replaceMatch => exact replaceMatch_preserves sig c tr h
  | removeAndLift => exact removeAndLift_preserves c tr h
  | repeatStep => exact repeat_preserves c tr h
  | swap => exact swap_preserves c tr h
  | generate => exact generate_preserves cs sig c rng tr h

/-- Witness for C3: the Repeat mutator on a concrete one-step trace. -/
theorem mutators_preserve_well_typedness_witness :
    ((Mutator.repeatStep.mutate ⟨0, 10⟩ [] 0 [] ⟨[⟨0, Action.output⟩]⟩).1 = .skipped ∧
        (Mutator.repeatStep.mutate ⟨0, 10⟩ [] 0 [] ⟨[⟨0, Action.output⟩]⟩).2
          = ⟨[⟨0, Action.output⟩]⟩) ∨
      ((Mutator.repeatStep.mutate ⟨0, 10⟩ [] 0 [] ⟨[⟨0, Action.output⟩]⟩).1 = .mutated ∧
        (Mutator.repeatStep.mutate ⟨0, 10⟩ [] 0 [] ⟨[⟨0, Action.output⟩]⟩).2.wellTyped = true) :=
  mutators_preserve_well_typedness .repeatStep ⟨0, 10⟩ [] 0 [] ⟨[⟨0, Action.output⟩]⟩ rfl

/-! ## Knowledge store (modelled from the spec, §3 / §4.6)

`trace.rs` is outside the snapshot.  Modelled from the spec: the knowledge
store is an append-only list of entries `(agent, optional message type,
value type, counter)`; counters are assigned at Output time by strict
insertion order per `(agent, type)` pair starting from 0. -/

/-- Modelled from the spec: one knowledge entry; `value` is the stored
datum, kept opaque as a `Nat`. -/
structure Knowledge where
  agent : Nat
  tlsMessageType : Option Nat
  typ : TypeShape
  counter : Nat
  value : Nat
deriving DecidableEq, Repr

/-- The number of entries already stored for an `(agent, type)` pair. -/
def countType (st : List Knowledge) (a : Nat) (ty : TypeShape) : Nat :=
  (st.filter fun k => k.agent == a && k.typ == ty).length

/-- Modelled from the spec: appending one drained claimable value to the
knowledge store, with its counter given by the number of existing entries
of the same `(agent, type)` pair. -/
def addKnowledge (st : List Knowledge) (a : Nat) (mt : Option Nat)
    (ty : TypeShape) (v : Nat) : List Knowledge :=
  st ++ [⟨a, mt, ty, countType st a ty, v⟩]

/-- Record all claimable sub-values drained during one Output step of the
given agent, in drain order. -/
def recordOutputs (a : Nat) (entries : List (Option Nat × TypeShape × Nat))
    (st : List Knowledge) : List Knowledge :=
  entries.foldl (fun st' e => addKnowledge st' a e.1 e.2.1 e.2.2) st

/-- Modelled from the spec (§4.6): the effect of one step on the knowledge
store — Input steps leave it unchanged, Output steps drain the agent's
outbound messages (given by the oracle, indexed by step position) and
record every claimable sub-value. -/
def knowledgeStep (oracle : Nat → List (Option Nat × TypeShape × Nat))
    (st : List Knowledge) (si : Nat × Step) : List Knowledge :=
  match si.2.action with
  | .input _ => st
  | .output => recordOutputs si.2.agent (oracle si.1) st

/-- Modelled from the spec (§4.6): the knowledge store produced by
`Trace::execute`, with the TLS library's drained output messages
abstracted as an oracle from step index to drained claimable values. -/
def executeKnowledge (tr : Trace)
    (oracle : Nat → List (Option Nat × TypeShape × Nat)) : List Knowledge :=
  tr.steps.enum.foldl (knowledgeStep oracle) []

/-- The contiguity invariant: for every `(agent, type)` pair the stored
counters, in insertion order, are exactly `0, 1, 2, …`. -/
def Contiguous (st : List Knowledge) : Prop :=
  ∀ a ty, ((st.filter fun k => k.agent == a && k.typ == ty).map (·.counter))
    = List.range (st.filter fun k => k.agent == a && k.typ == ty).length

theorem contiguous_nil : Contiguous [] := by
  intro a ty
  rfl

theorem addKnowledge_contiguous (st : List Knowledge) (a : Nat)
    (mt : Option Nat) (ty : TypeShape) (v : Nat) (h : Contiguous st) :
    Contiguous (addKnowledge st a mt ty v) := by
  intro a' ty'
  unfold addKnowledge
  rw [List.filter_append, List.map_append, List.length_append]
  by_cases hmatch : (a == a' && ty == ty') = true
  · have hf : List.filter (fun k => k.agent == a' && k.typ == ty')
        [(⟨a, mt, ty, countType st a ty, v⟩ : Knowledge)]
        = [⟨a, mt, ty, countType st a ty, v⟩] := by
      simp only [List.filter_cons, List.filter_nil]
      rw [if_pos hmatch]
    rw [hf]
    simp only [Bool.and_eq_true, beq_iff_eq] at hmatch
    obtain ⟨rfl, rfl⟩ := hmatch
    rw [h a ty]
    simp [countType, List.range_succ]
  · have hf : List.filter (fun k => k.agent == a' && k.typ == ty')
        [(⟨a, mt, ty, countType st a ty, v⟩ : Knowledge)] = [] := by
      simp only [List.filter_cons, List.filter_nil]
      rw [if_neg hmatch]
    rw [hf]
    simpa using h a' ty'

theorem recordOutputs_contiguous (a : Nat)
    (entries : List (Option Nat × TypeShape × Nat)) :
    ∀ st, Contiguous st → Contiguous (recordOutputs a entries st) := by
  induction entries with
  | nil => intro st h; exact h
  | cons e es ih =>
    intro st h
    exact ih _ (addKnowledge_contiguous st a e.1 e.2.1 e.2.2 h)

theorem knowledgeStep_contiguous (oracle : Nat → List (Option Nat × TypeShape × Nat))
    (si : Nat × Step) (st : List Knowledge) (h : Contiguous st) :
    Contiguous (knowledgeStep oracle st si) := by
  unfold knowledgeStep
  split
  · exact h
  · exact recordOutputs_contiguous _ _ st h

theorem foldl_knowledgeStep_contiguous
    (oracle : Nat → List (Option Nat × TypeShape × Nat)) :
    ∀ (l : List (Nat × Step)) (st : List Knowledge), Contiguous st →
      Contiguous (l.foldl (knowledgeStep oracle) st) := by
  intro l
  induction l with
  | nil => intro st h; exact h
  | cons x xs ih =>
    intro st h
    exact ih _ (knowledgeStep_contiguous oracle x st h)

/-! ## Claim C4 -/

/-- C4: for every trace and every sequence of drained output values,
after execution the knowledge-store counters for each `(agent, type)`
pair are exactly `0, 1, 2, …` contiguous, in strict insertion order
starting from 0. -/
theorem knowledge_counters_contiguous (tr : Trace)
    (oracle : Nat → List (Option Nat × TypeShape × Nat)) (a : Nat)
    (ty : TypeShape) :
    (((executeKnowledge tr oracle).filter
        fun k => k.agent == a && k.typ == ty).map (·.counter))
      = List.range ((executeKnowledge tr oracle).filter
        fun k => k.agent == a && k.typ == ty).length :=
  foldl_knowledgeStep_contiguous oracle tr.steps.enum [] contiguous_nil a ty

/-! ## Dynamic function table (modelled from the spec, §4.1)

`term/dynamic_function.rs` is outside the snapshot (only its caller in
`benches/benchmark.rs` is present).  Modelled from the spec: a typed
function is erased to a `DynamicFunction` that checks the argument count,
downcasts each argument against the declared TypeShape in order, and
forwards the typed call's result. -/

/-- Modelled from the spec: a type-erased value — its runtime TypeShape
and an opaque payload. -/
structure DynValue where
  typ : TypeShape
  val : Nat
deriving DecidableEq, Repr

/-- Modelled from the spec: a registered typed function `f : (A1, …, An)
→ R`, as its declared argument/return TypeShapes and its implementation
on payloads (which may fail with `f`'s own declared error). -/
structure TypedFn where
  argumentTypes : List TypeShape
  ret : TypeShape
  impl : List Nat → Except Nat Nat

/-- `FunctionError` (§4.1): wrong arity, a type mismatch at an index with
the expected and actual TypeShapes, or the typed function's own declared
error. -/
inductive FunctionError where
  | wrongArity
  | typeMismatch (index : Nat) (expected actual : TypeShape)
  | declared (e : Nat)
deriving DecidableEq, Repr

/-- The first index at which an argument's runtime TypeShape differs from
the declared one, with the expected and actual shapes. -/
def firstMismatch : List TypeShape → List DynValue → Option (Nat × TypeShape × TypeShape)
  | [], _ => none
  | _ :: _, [] => none
  | e :: es, a :: as_ =>
    if a.typ = e then (firstMismatch es as_).map fun r => (r.1 + 1, r.2)
    else some (0, e, a.typ)

/-- Modelled from the spec (§4.1): `make_dynamic(f)` — the type-erased
closure checks the argument count against the arity, downcasts each
argument in order (failing with the index and the expected/actual
TypeShapes), and otherwise calls `f` and boxes its result. -/
def make_dynamic (f : TypedFn) (args : List DynValue) :
    Except FunctionError DynValue :=
  if args.length ≠ f.argumentTypes.length then .error .wrongArity
  else
    match firstMismatch f.argumentTypes args with
    | some (i, e, aty) => .error (.typeMismatch i e aty)
    | none =>
      match f.impl (args.map (·.val)) with
      | .ok r => .ok ⟨f.ret, r⟩
      | .error e => .error (.declared e)

theorem firstMismatch_spec (es : List TypeShape) (as_ : List DynValue) :
    ∀ j e aty, firstMismatch es as_ = some (j, e, aty) →
      es.get? j = some e ∧ (∃ dv, as_.get? j = some dv ∧ dv.typ = aty) ∧
        aty ≠ e := by
  induction es generalizing as_ with
  | nil => intro j e aty h; simp [firstMismatch] at h
  | cons e0 es ih =>
    intro j e aty h
    cases as_ with
    | nil => simp [firstMismatch] at h
    | cons a0 as_ =>
      unfold firstMismatch at h
      by_cases he : a0.typ = e0
      · rw [if_pos he] at h
        cases hm : firstMismatch es as_ with
        | none => rw [hm] at h; simp at h
        | some r =>
          obtain ⟨j0, e0', aty0⟩ := r
          rw [hm] at h
          cases h
          have hr := ih as_ j0 e aty hm
          exact ⟨by simpa using hr.1, by simpa using hr.2.1, hr.2.2⟩
      · rw [if_neg he] at h
        cases h
        exact ⟨rfl, ⟨a0, rfl, rfl⟩, he⟩

theorem firstMismatch_none (es : List TypeShape) (as_ : List DynValue)
    (h : firstMismatch es as_ = none) :
    ∀ i e a, es.get? i = some e → as_.get? i = some a → a.typ = e := by
  induction es generalizing as_ with
  | nil => intro i e a h1 _; simp at h1
  | cons e0 es ih =>
    intro i e a h1 h2
    cases as_ with
    | nil => simp at h2
    | cons a0 as_ =>
      unfold firstMismatch at h
      by_cases he : a0.typ = e0
      · rw [if_pos he] at h
        cases hm : firstMismatch es as_ with
        | some r => rw [hm] at h; simp at h
        | none =>
          cases i with
          | zero =>
            simp only [List.get?_cons_zero, Option.some.injEq] at h1 h2
            rw [← h1, ← h2]
            exact he
          | succ n =>
            simp only [List.get?_cons_succ] at h1 h2
            exact ih as_ hm n e a h1 h2
      · rw [if_neg he] at h
        cases h

theorem firstMismatch_eq_none (es : List TypeShape) :
    ∀ as_ : List DynValue, as_.length = es.length →
      (∀ i e a, es.get? i = some e → as_.get? i = some a → a.typ = e) →
      firstMismatch es as_ = none := by
  induction es with
  | nil => intro as_ _ _; rfl
  | cons e0 es ih =>
    intro as_ hlen hall
    cases as_ with
    | nil => simp at hlen
    | cons a0 as_ =>
      have he : a0.typ = e0 := hall 0 e0 a0 rfl rfl
      unfold firstMismatch
      rw [if_pos he]
      rw [ih as_ (by simpa using hlen) fun i e a h1 h2 =>
        hall (i + 1) e a (by simpa using h1) (by simpa using h2)]
      rfl

/-! ## Claim C5 -/

/-- C5: the dynamic call produced by `make_dynamic` fails with
`WrongArity` when the argument count differs from the declared arity;
fails with `TypeMismatch(index, expected, actual)` when some argument's
runtime TypeShape differs from the declared one at that index; and
otherwise forwards the typed function's success value or its own
declared error. -/
theorem make_dynamic_contract (f : TypedFn) (args : List DynValue) :
    (args.length ≠ f.argumentTypes.length →
      make_dynamic f args = .error .wrongArity) ∧
    (args.length = f.argumentTypes.length →
      (∃ i e a, f.argumentTypes.get? i = some e ∧ args.get? i = some a ∧
        a.typ ≠ e) →
      ∃ j e aty, make_dynamic f args = .error (.typeMismatch j e aty) ∧
        f.argumentTypes.get? j = some e ∧
        (∃ dv, args.get? j = some dv ∧ dv.typ = aty) ∧ aty ≠ e) ∧
    (args.length = f.argumentTypes.length →
      (∀ i e a, f.argumentTypes.get? i = some e → args.get? i = some a →
        a.typ = e) →
      make_dynamic f args =
        match f.impl (args.map (·.val)) with
        | .ok r => .ok ⟨f.ret, r⟩
        | .error e => .error (.declared e)) := by
  refine ⟨?_, ?_, ?_⟩
  · intro hne
    unfold make_dynamic
    rw [if_pos hne]
  · intro hlen hex
    unfold make_dynamic
    rw [if_neg (not_not_intro hlen)]
    cases hm : firstMismatch f.argumentTypes args with
    | none =>
      exfalso
      obtain ⟨i, e, a, h1, h2, hne⟩ := hex
      exact hne (firstMismatch_none _ _ hm i e a h1 h2)
    | some r =>
      obtain ⟨j, e, aty⟩ := r
      have hs := firstMismatch_spec f.argumentTypes args j e aty hm
      exact ⟨j, e, aty, rfl, hs.1, hs.2.1, hs.2.2⟩
  · intro hlen hall
    unfold make_dynamic
    rw [if_neg (not_not_intro hlen),
      firstMismatch_eq_none f.argumentTypes args hlen hall]

/-- A sample registered function used by concrete witnesses: one argument
of TypeShape 0, returning TypeShape 5, forwarding its argument. -/
def sampleFn : TypedFn :=
  ⟨[0], 5, fun vs => .ok (vs.headD 0)⟩

/-- Witness for C5: all three contract clauses at concrete calls. -/
theorem make_dynamic_contract_witness :
    make_dynamic sampleFn [] = .error .wrongArity ∧
    (∃ j e aty, make_dynamic sampleFn [⟨1, 9⟩] = .error (.typeMismatch j e aty) ∧
      sampleFn.argumentTypes.get? j = some e ∧
      (∃ dv, ([⟨1, 9⟩] : List DynValue).get? j = some dv ∧ dv.typ = aty) ∧
      aty ≠ e) ∧
    make_dynamic sampleFn [⟨0, 9⟩] =
      match sampleFn.impl (([⟨0, 9⟩] : List DynValue).map (·.val)) with
      | .ok r => .ok ⟨sampleFn.ret, r⟩
      | .error e => .error (.declared e) :=
  ⟨(make_dynamic_contract sampleFn []).1 (by decide),
    (make_dynamic_contract sampleFn [⟨1, 9⟩]).2.1 (by decide)
      ⟨0, 0, ⟨1, 9⟩, rfl, rfl, by decide⟩,
    (make_dynamic_contract sampleFn [⟨0, 9⟩]).2.2 (by decide)
      (fun i e a h1 h2 => by
        match i with
        | 0 =>
          simp only [sampleFn, List.get?_cons_zero, Option.some.injEq] at h1 h2
          rw [← h1, ← h2]
        | n + 1 => simp [sampleFn] at h1)⟩

/-! ## Claim C6 -/

/-- Modelled from the spec: erasing a typed value boxes it with its
TypeShape. -/
def erase (ty : TypeShape) (v : Nat) : DynValue := ⟨ty, v⟩

/-- Erase a type-correct argument tuple of `f`: each payload is tagged
with the corresponding declared TypeShape. -/
def eraseArgs (f : TypedFn) (vals : List Nat) : List DynValue :=
  List.zipWith erase f.argumentTypes vals

/-- Erase the result of calling `f` directly: successes are boxed at the
return TypeShape, errors become the declared-error variant.  This is the
specification side of the refinement claim (`erase(f(a))`). -/
def eraseResult (f : TypedFn) : Except Nat Nat → Except FunctionError DynValue
  | .ok r => .ok ⟨f.ret, r⟩
  | .error e => .error (.declared e)

theorem firstMismatch_eraseArgs (es : List TypeShape) :
    ∀ vals : List Nat, firstMismatch es (List.zipWith erase es vals) = none := by
  induction es with
  | nil => intro vals; rfl
  | cons e0 es ih =>
    intro vals
    cases vals with
    | nil => rfl
    | cons v vals =>
      unfold firstMismatch
      simp only [List.zipWith_cons_cons]
      rw [if_pos (show (erase e0 v).typ = e0 from rfl), ih vals]
      rfl

theorem map_val_eraseArgs (es : List TypeShape) :
    ∀ vals : List Nat, vals.length = es.length →
      (List.zipWith erase es vals).map (·.val) = vals := by
  induction es with
  | nil =>
    intro vals h
    rw [List.length_nil, List.length_eq_zero] at h
    rw [h]
    rfl
  | cons e0 es ih =>
    intro vals h
    cases vals with
    | nil => simp at h
    | cons v vals =>
      simp only [List.zipWith_cons_cons, List.map_cons, List.cons.injEq]
      exact ⟨rfl, ih vals (by simpa using h)⟩

/-- C6: for every registered typed function and every type-correct
argument tuple, calling the type-erased wrapper produced by
`make_dynamic` on the erased arguments yields the same result as erasing
the result of calling the typed function directly. -/
theorem make_dynamic_static_equiv (f : TypedFn) (vals : List Nat)
    (h : vals.length = f.argumentTypes.length) :
    make_dynamic f (eraseArgs f vals) = eraseResult f (f.impl vals) := by
  unfold make_dynamic
  have hl : (eraseArgs f vals).length = f.argumentTypes.length := by
    simp [eraseArgs, List.length_zipWith, h]
  rw [if_neg (not_not_intro hl)]
  unfold eraseArgs
  rw [firstMismatch_eraseArgs f.argumentTypes vals,
    map_val_eraseArgs f.argumentTypes vals h]
  cases himp : f.impl vals <;> rfl

/-- Witness for C6: dynamic and static calls agree at a concrete
function and argument. -/
theorem make_dynamic_static_equiv_witness :
    make_dynamic sampleFn (eraseArgs sampleFn [9])
      = eraseResult sampleFn (sampleFn.impl [9]) :=
  make_dynamic_static_equiv sampleFn [9] (by decide)

/-! ## Claim C9

`make_deterministic` and the RAND method it installs live in
`openssl_binding.rs`, outside the snapshot; only the test
`test_openssl_no_randomness` (src/fuzzer/tests.rs lines 19-25) is
present, asserting that a 2-byte `rand_bytes` read after the hook yields
`[70, 100]`. -/

/-- Modelled from the spec: the fixed deterministic byte stream produced
by the hooked RAND method.  S6 pins its first two bytes to 70 and 100;
the continuation is not constrained by the spec and is given an arbitrary
concrete form. -/
def detStream (n : Nat) : Nat := (70 + 30 * n) % 256

/-- Modelled from the spec: after `make_deterministic` installs the
deterministic RAND method, every `rand_bytes` call fills its buffer from
the start of the fixed stream — the method carries no state across calls
(S6: successive reads yield the same literal bytes), so the state type is
trivial. -/
def rand_bytes (s : Unit) (n : Nat) : List Nat × Unit :=
  ((List.range n).map detStream, s)

/-- C9: after the deterministic-mode hook is installed, two successive
2-byte reads of the TLS library's randomness both yield the literal
bytes `[70, 100]`. -/
theorem make_deterministic_two_reads :
    (rand_bytes () 2).1 = [70, 100] ∧
      (rand_bytes (rand_bytes () 2).2 2).1 = [70, 100] := by
  constructor <;> rfl

end Tlspuffin
